import Mathlib

/-
Shallow embedding of the nonnative field arithmetic gadget layer in
src/plonky2x/src/frontend/num/nonnative/nonnative.rs.

Witness values of circuit targets are modelled as natural numbers; the
witness value of a BigUintTarget is the natural number it encodes, and a
limb vector is a little-endian list of base 2^32 digits.  The foreign
prime is a parameter p.  The external field type FF supplies, per the
spec, canonical conversion (from_noncanonical_biguint followed by
to_canonical_biguint reduces an arbitrary big integer mod p) and a
modular inverse of nonzero elements.
-/

/-- Little-endian base 2^32 recombination of a limb list. -/
def limbsVal (ls : List Nat) : Nat :=
  ls.foldr (fun l acc => l + 2 ^ 32 * acc) 0

/-- All limbs pass the u32 range check (range_check_u32_circuit). -/
def rangeChecked32 (ls : List Nat) : Prop :=
  ∀ l ∈ ls, l < 2 ^ 32

instance (ls : List Nat) : Decidable (rangeChecked32 ls) := by
  unfold rangeChecked32
  infer_instance

/-- ceil_div_usize(FF::BITS, 32): the limb count of a nonnative target. -/
def numNonnativeLimbs (bits : Nat) : Nat := (bits + 31) / 32

/-- BigUint::to_u32_digits: little-endian base 2^32 digits with no leading
zero digit; the empty list for zero. -/
def toU32Digits (n : Nat) : List Nat :=
  if h : n = 0 then [] else n % 2 ^ 32 :: toU32Digits (n / 2 ^ 32)
termination_by n
decreasing_by exact Nat.div_lt_self (Nat.pos_of_ne_zero h) (by norm_num)

/-- BigUint::to_u64_digits: little-endian base 2^64 digits with no leading
zero digit; the empty list for zero. -/
def toU64Digits (n : Nat) : List Nat :=
  if h : n = 0 then [] else n % 2 ^ 64 :: toU64Digits (n / 2 ^ 64)
termination_by n
decreasing_by exact Nat.div_lt_self (Nat.pos_of_ne_zero h) (by norm_num)

/-- The secp256k1 base field modulus, the foreign prime used by the tests
of the source file. -/
def secpP : Nat :=
  115792089237316195423570985008687907853269984665640564039457584007908834671663

/-- NonNativeAdditionGenerator::run_once on input witness values a and b:
both inputs pass through from_noncanonical_biguint and
to_canonical_biguint, which reduces them mod p; then the source compares
sum_biguint with the strict test sum_biguint > modulus.  Returns
(overflow, sum). -/
def addGenRun (p a b : Nat) : Bool × Nat :=
  if p < a % p + b % p then (true, a % p + b % p - p)
  else (false, a % p + b % p)

/-- NonNativeSubtractionGenerator::run_once on input witness values a and
b, both canonicalized mod p; the source branches on a_biguint >= b_biguint.
Returns (diff, overflow). -/
def subGenRun (p a b : Nat) : Nat × Bool :=
  if b % p ≤ a % p then (a % p - b % p, false)
  else (p + a % p - b % p, true)

/-- NonNativeMultiplicationGenerator::run_once on canonicalized inputs:
div_rem of the product by the modulus.  Returns (prod, overflow). -/
def mulGenRun (p a b : Nat) : Nat × Nat :=
  (a % p * (b % p) % p, a % p * (b % p) / p)

/-- NonNativeMultipleAddsGenerator::run_once: canonicalize every summand
mod p, fold the sum, div_rem by the modulus, then materialize the quotient
as overflow_biguint.to_u64_digits()[0] as u32.  Indexing [0] into the
digit vector of a zero quotient is out of bounds and panics; that case is
returned as none.  Returns some (sum, overflow) otherwise. -/
def multiAddRun (p : Nat) (vals : List Nat) : Option (Nat × Nat) :=
  match (toU64Digits ((vals.map (· % p)).foldl (· + ·) 0 / p)).get? 0 with
  | none => none
  | some d => some ((vals.map (· % p)).foldl (· + ·) 0 % p, d % 2 ^ 32)

/-- FF::inverse for a prime modulus, modelled from the spec words
"Compute inv = V(x) inverse mod p" as the Fermat inverse. -/
def modInverse (p x : Nat) : Nat := x ^ (p - 2) % p

/-- NonNativeInverseGenerator::run_once: canonicalize x mod p, call
FF::inverse (which panics on zero, returned as none), multiply, and take
the quotient by the modulus.  Returns some (div, inv). -/
def invGenRun (p x : Nat) : Option (Nat × Nat) :=
  if x % p = 0 then none
  else some (x % p * modInverse p (x % p) / p, modInverse p (x % p))

/- Helper equation lemmas for the digit functions. -/

theorem toU32Digits_zero : toU32Digits 0 = [] := by
  rw [toU32Digits]
  simp

theorem toU32Digits_pos (n : Nat) (h : n ≠ 0) :
    toU32Digits n = n % 2 ^ 32 :: toU32Digits (n / 2 ^ 32) := by
  rw [toU32Digits]
  simp [h]

theorem toU64Digits_zero : toU64Digits 0 = [] := by
  rw [toU64Digits]
  simp

theorem limbsVal_toU32Digits (n : Nat) : limbsVal (toU32Digits n) = n := by
  induction n using Nat.strong_induction_on with
  | _ n ih =>
    by_cases h : n = 0
    · subst h
      rw [toU32Digits_zero]
      rfl
    · rw [toU32Digits_pos n h]
      have hrec := ih (n / 2 ^ 32)
        (Nat.div_lt_self (Nat.pos_of_ne_zero h) (by norm_num))
      show n % 2 ^ 32 + 2 ^ 32 * limbsVal (toU32Digits (n / 2 ^ 32)) = n
      rw [hrec, Nat.mod_add_div]

/-- C1: the spec says the addition generator sets overflow = 1 and
sum = S - p whenever S = V(a) + V(b) ≥ p, and in particular that
add(p - 1, 1) produces sum = 0 with overflow = 1.  The source tests
sum_biguint > modulus strictly, so at the boundary S = p (reduced inputs
a = p - 1, b = 1 over the secp256k1 base modulus) run_once writes
overflow = 0 and sum = p, an unreduced sum that violates the very
constraint sum < p that add_nonnative emits. -/
theorem addGenerator_rollover_code_bug :
    addGenRun secpP (secpP - 1) 1 = (false, secpP) ∧
      ¬ (addGenRun secpP (secpP - 1) 1).2 < secpP := by
  constructor
  · decide
  · decide

/-- C2: the spec says the multi-add generator writes
(overflow, sum) = divmod(S, p) for every quotient, including quotient 0.
The source computes overflow_biguint.to_u64_digits()[0], and
to_u64_digits of the zero quotient is the empty vector, so the index is
out of bounds and run_once panics: on summands [0, 0] (sum 0 < p,
quotient 0) no output is written. -/
theorem multiAddGenerator_zero_quotient_code_bug :
    multiAddRun secpP [0, 0] = none := by
  simp [multiAddRun, toU64Digits_zero]

/-- C6: the subtraction generator, on reduced inputs a, b < p, writes
diff = a - b with overflow = 0 when a ≥ b and diff = p + a - b with
overflow = 1 otherwise; in particular sub(0, 1) gives diff = p - 1 with
overflow = 1, and in all cases diff is reduced and diff + b ≡ a mod p,
so the result equals a - b in the foreign field. -/
theorem sub_generator_correct (p a b : Nat) (hp : 2 ≤ p)
    (ha : a < p) (hb : b < p) :
    subGenRun p a b = (if b ≤ a then (a - b, false) else (p + a - b, true)) ∧
      ((subGenRun p a b).1 + b) % p = a % p ∧
      (subGenRun p a b).1 < p ∧
      subGenRun p 0 1 = (p - 1, true) := by
  have hma : a % p = a := Nat.mod_eq_of_lt ha
  have hmb : b % p = b := Nat.mod_eq_of_lt hb
  have h0 : 0 % p = 0 := Nat.zero_mod p
  have h1 : 1 % p = 1 := Nat.mod_eq_of_lt (by omega)
  refine ⟨?_, ?_, ?_, ?_⟩
  · rw [subGenRun, hma, hmb]
  · rw [subGenRun, hma, hmb]
    by_cases hle : b ≤ a
    · simp only [hle, if_true]
      have : a - b + b = a := by omega
      rw [this]
      exact hma
    · simp only [hle, if_false]
      have : p + a - b + b = p + a := by omega
      rw [this, Nat.add_mod_left]
      exact hma
  · rw [subGenRun, hma, hmb]
    by_cases hle : b ≤ a
    · simp only [hle, if_true]
      omega
    · simp only [hle, if_false]
      omega
  · rw [subGenRun, h0, h1]
    have : ¬ (1 ≤ 0) := by omega
    simp only [this, if_false]
    simp

/-- Witness for C6 at p = 7, a = 3, b = 5. -/
theorem sub_generator_correct_witness :
    subGenRun 7 3 5 = (if 5 ≤ 3 then (3 - 5, false) else (7 + 3 - 5, true)) ∧
      ((subGenRun 7 3 5).1 + 5) % 7 = 3 % 7 ∧
      (subGenRun 7 3 5).1 < 7 ∧
      subGenRun 7 0 1 = (7 - 1, true) :=
  sub_generator_correct 7 3 5 (by decide) (by decide) (by decide)

/- Constraint schemas, as emitted by the builder methods, read at the
level of witness values: connect_biguint is equality of encoded values,
cmp_biguint connected to one is a strict comparison, and
mul_biguint_by_bool of the modulus by a target holding o has value o * p. -/

/-- The constraints add_nonnative emits on witness values: the equation
a + b = sum + overflow * p (connect_biguint of sum_expected and
sum_actual) and the reducedness comparison sum < p (cmp_biguint connected
to one).  No other constraint is emitted; in particular overflow is
allocated with add_virtual_bool_target_unsafe and no assert_bool call
appears. -/
def addEmittedCode (p va vb vsum o : Nat) : Prop :=
  va + vb = vsum + o * p ∧ vsum < p

instance (p va vb vsum o : Nat) : Decidable (addEmittedCode p va vb vsum o) := by
  unfold addEmittedCode
  infer_instance

/-- Modelled from the spec: the addition schema as the spec words it,
with overflow additionally asserted boolean. -/
def addEmittedSpec (p va vb vsum o : Nat) : Prop :=
  addEmittedCode p va vb vsum o ∧ (o = 0 ∨ o = 1)

instance (p va vb vsum o : Nat) : Decidable (addEmittedSpec p va vb vsum o) := by
  unfold addEmittedSpec
  infer_instance

/-- The constraints mul_nonnative emits: u32 range checks on the limbs of
prod and of overflow (range_check_u32_circuit) and the equation
a * b = prod + overflow * p (connect_biguint of prod_expected and
prod_actual).  No reducedness comparison on prod is emitted. -/
def mulEmitted (p : Nat) (a b prod overflow : List Nat) : Prop :=
  rangeChecked32 prod ∧ rangeChecked32 overflow ∧
    limbsVal a * limbsVal b = limbsVal prod + p * limbsVal overflow

instance (p : Nat) (a b prod overflow : List Nat) :
    Decidable (mulEmitted p a b prod overflow) := by
  unfold mulEmitted
  infer_instance

/-- Modelled from the spec: the multiplication schema as the spec words
it, with prod < p additionally asserted. -/
def mulEmittedSpec (p : Nat) (a b prod overflow : List Nat) : Prop :=
  mulEmitted p a b prod overflow ∧ limbsVal prod < p

instance (p : Nat) (a b prod overflow : List Nat) :
    Decidable (mulEmittedSpec p a b prod overflow) := by
  unfold mulEmittedSpec
  infer_instance

/-- The constraint inv_nonnative emits: x * inv = div * p + 1
(connect_biguint of product and expected_product). -/
def invConstraint (p x inv div : Nat) : Prop :=
  x * inv = div * p + 1

/-- C3 counterexample: over p = 5 (one 32-bit limb per element), with the
reduced inputs a = 2 and b = 3, the constraints mul_nonnative actually
emits are satisfied both by the unreduced witness prod = 6, overflow = 0
and by the reduced witness prod = 1, overflow = 1, so a satisfying
witness does not uniquely determine prod, and the emitted constraints
lack the prod < p assertion the claim states. -/
theorem mul_missing_reduced_assert_cex :
    mulEmitted 5 [2] [3] [6] [0] ∧ mulEmitted 5 [2] [3] [1] [1] ∧
      limbsVal [6] ≠ limbsVal [1] ∧ ¬ mulEmittedSpec 5 [2] [3] [6] [0] := by
  refine ⟨?_, ?_, ?_, ?_⟩ <;> decide

/-- C3 amended: mul_nonnative emits the equation
a * b = prod + overflow * p together with u32 range checks on the limbs
of prod and overflow but no prod < p assertion, so a satisfying witness
determines prod only up to congruence mod p: prod ≡ a * b mod p. -/
theorem mul_constraints_determine_prod_mod_p
    (p : Nat) (a b prod overflow : List Nat)
    (h : mulEmitted p a b prod overflow) :
    limbsVal prod % p = limbsVal a * limbsVal b % p := by
  rcases h with ⟨-, -, heq⟩
  rw [heq, Nat.add_mul_mod_self_left]

/-- Witness for the amended C3 at p = 5, a = [2], b = [3], prod = [1],
overflow = [1]. -/
theorem mul_constraints_determine_prod_mod_p_witness :
    limbsVal [1] % 5 = limbsVal [2] * limbsVal [3] % 5 :=
  mul_constraints_determine_prod_mod_p 5 [2] [3] [1] [1] (by decide)

/-- C4 counterexample: the constraints add_nonnative actually emits are
satisfied by witness values va = 9, vb = 6, sum = 0, overflow = 3 over
p = 5, an overflow that is not boolean, while the schema the claim
states (with the boolean assertion) rejects them: no boolean assertion
on overflow is emitted. -/
theorem add_missing_bool_assert_cex :
    addEmittedCode 5 9 6 0 3 ∧ ¬ addEmittedSpec 5 9 6 0 3 := by
  constructor <;> decide

/-- C4 amended: add_nonnative emits the equation
a + b = sum + overflow * p and the reducedness assertion sum < p, but no
boolean assertion on the overflow target (it is allocated with
add_virtual_bool_target_unsafe and left unconstrained); for reduced
inputs a, b < p the two emitted constraints nevertheless force
overflow to be 0 or 1. -/
theorem add_constraints_force_boolean_overflow
    (p va vb vsum o : Nat) (ha : va < p) (hb : vb < p)
    (h : addEmittedCode p va vb vsum o) :
    o ≤ 1 := by
  rcases h with ⟨heq, -⟩
  by_contra hgt
  have h2 : 2 ≤ o := by omega
  have hp : 0 < p := by omega
  have : 2 * p ≤ o * p := Nat.mul_le_mul_right p h2
  omega

/-- Witness for the amended C4 at p = 5, va = 4, vb = 2, sum = 1,
overflow = 1. -/
theorem add_constraints_force_boolean_overflow_witness : (1 : Nat) ≤ 1 :=
  add_constraints_force_boolean_overflow 5 4 2 1 1 (by decide) (by decide)
    (by decide)

/-- NonNativeTarget::elements on a foreign field value x (canonical
representative x % p): take to_u32_digits of the canonical biguint,
assert the digit count equals num_nonnative_limbs (a failed assert
panics, returned as none), then widen each u32 digit to one native field
element. -/
def elementsFF (p bits x : Nat) : Option (List Nat) :=
  if (toU32Digits (x % p)).length = numNonnativeLimbs bits then
    some (toU32Digits (x % p))
  else none

/-- C5 counterexample: over the secp256k1 base modulus (FF::BITS = 256,
L = 8), elements(0) does not succeed: to_u32_digits of zero is the empty
vector, its length 0 differs from 8, and the assert fails. -/
theorem elements_zero_cex : elementsFF secpP 256 0 = none := by
  rw [elementsFF]
  rw [Nat.zero_mod, toU32Digits_zero]
  simp [numNonnativeLimbs]

/-- C5 amended: elements(x) succeeds exactly when the canonical integer
of x has exactly nb_elements base 2^32 digits without a leading zero (so
it aborts for x = 0 and for any x whose canonical integer fits in fewer
digits); when it succeeds it returns exactly nb_elements native
elements, and their little-endian 32-bit recombination equals the
canonical integer of x. -/
theorem elements_success_spec (p bits x : Nat) (ds : List Nat)
    (h : elementsFF p bits x = some ds) :
    ds.length = numNonnativeLimbs bits ∧ limbsVal ds = x % p := by
  rw [elementsFF] at h
  by_cases hlen : (toU32Digits (x % p)).length = numNonnativeLimbs bits
  · rw [if_pos hlen] at h
    have hds : ds = toU32Digits (x % p) := by
      injection h with h
      exact h.symm
    subst hds
    exact ⟨hlen, limbsVal_toU32Digits (x % p)⟩
  · rw [if_neg hlen] at h
    exact absurd h (by simp)

/-- Witness for the amended C5 at p = 5, bits = 3, x = 3. -/
theorem elements_success_spec_witness :
    ([3] : List Nat).length = numNonnativeLimbs 3 ∧ limbsVal [3] = 3 % 5 :=
  elements_success_spec 5 3 3 [3] (by
    rw [elementsFF]
    have h3 : (3 : Nat) % 5 = 3 := by decide
    have hdiv : (3 : Nat) / 2 ^ 32 = 0 := by decide
    have hmod : (3 : Nat) % 2 ^ 32 = 3 := by decide
    rw [h3, toU32Digits_pos 3 (by decide), hdiv, hmod, toU32Digits_zero]
    simp [numNonnativeLimbs])

/-- The Fermat inverse really inverts: for a prime modulus p and a
nonzero reduced x, modInverse p x * x is 1 mod p. -/
theorem modInverse_mul (p x : Nat) (hp : Nat.Prime p) (hx0 : x ≠ 0)
    (hx : x < p) : modInverse p x * x % p = 1 := by
  have h2 : 2 ≤ p := hp.two_le
  have hnd : ¬ p ∣ x := fun hd =>
    absurd (Nat.le_of_dvd (Nat.pos_of_ne_zero hx0) hd) (by omega)
  have hco : Nat.Coprime x p :=
    Nat.Coprime.symm ((Nat.Prime.coprime_iff_not_dvd hp).mpr hnd)
  have heuler : x ^ (p - 1) ≡ 1 [MOD p] := by
    have h := Nat.ModEq.pow_totient hco
    rwa [Nat.totient_prime hp] at h
  have hsplit : x ^ (p - 1) = x ^ (p - 2) * x := by
    have hsub : p - 1 = (p - 2) + 1 := by omega
    rw [hsub, pow_succ]
  have hmod : modInverse p x * x ≡ 1 [MOD p] := by
    calc modInverse p x * x
        ≡ x ^ (p - 2) * x [MOD p] :=
          Nat.ModEq.mul_right x (Nat.mod_modEq (x ^ (p - 2)) p)
      _ = x ^ (p - 1) := hsplit.symm
      _ ≡ 1 [MOD p] := heuler
  have h1p : 1 % p = 1 := Nat.mod_eq_of_lt (by omega)
  have hfin : modInverse p x * x % p = 1 % p := hmod
  rw [h1p] at hfin
  exact hfin

/-- C7: for a prime modulus p and a reduced nonzero x, the inverse
generator returns div = x * inv / p and inv = modInverse p x; this
output satisfies the emitted constraint x * inv = div * p + 1, and
inv * x is 1 mod p, so inv is the inverse of x in the foreign field.
For x = 0 the constraint is unsatisfiable by any witness, and the
generator itself fails (FF::inverse panics), surfacing as a
proof-generation failure. -/
theorem inv_nonnative_correct (p x : Nat) (hp : Nat.Prime p)
    (hx : x < p) (hx0 : x ≠ 0) :
    invGenRun p x = some (x * modInverse p x / p, modInverse p x) ∧
      invConstraint p x (modInverse p x) (x * modInverse p x / p) ∧
      modInverse p x * x % p = 1 ∧
      (∀ inv div : Nat, ¬ invConstraint p 0 inv div) ∧
      invGenRun p 0 = none := by
  have hxm : x % p = x := Nat.mod_eq_of_lt hx
  have hinv : modInverse p x * x % p = 1 := modInverse_mul p x hp hx0 hx
  refine ⟨?_, ?_, hinv, ?_, ?_⟩
  · rw [invGenRun, hxm, if_neg hx0]
  · have hmod1 : x * modInverse p x % p = 1 := by
      rw [Nat.mul_comm]
      exact hinv
    have hdm := Nat.div_add_mod (x * modInverse p x) p
    rw [invConstraint, Nat.mul_comm (x * modInverse p x / p) p]
    omega
  · intro inv div h
    rw [invConstraint, Nat.zero_mul] at h
    exact Nat.succ_ne_zero (div * p) h.symm
  · rw [invGenRun]
    simp

/-- Witness for C7 at p = 5, x = 2: the generator returns
div = 1, inv = 3. -/
theorem inv_nonnative_correct_witness :
    invGenRun 5 2 = some (2 * modInverse 5 2 / 5, modInverse 5 2) ∧
      invConstraint 5 2 (modInverse 5 2) (2 * modInverse 5 2 / 5) ∧
      modInverse 5 2 * 2 % 5 = 1 ∧
      (∀ inv div : Nat, ¬ invConstraint 5 0 inv div) ∧
      invGenRun 5 0 = none :=
  inv_nonnative_correct 5 2 (by norm_num) (by decide) (by decide)

/-- split_nonnative_to_bits: for each limb of x, in order from the low
limb, split_le_base::<2>(limb, 32) produces the 32 little-endian base 2
digits of the limb; the per-limb bit vectors are appended low limb
first.  A bit value is the witness value of one boolean target. -/
def splitNonnativeToBits (limbs : List Nat) : List Nat :=
  (limbs.map fun limb => (List.range 32).map fun i => limb / 2 ^ i % 2).flatten

/-- Little-endian base 2 recombination of a bit list. -/
def bitsLEVal (bs : List Nat) : Nat :=
  bs.foldr (fun b acc => b + 2 * acc) 0

theorem bitsLEVal_bits_append (k : Nat) : ∀ (l : Nat) (bs : List Nat),
    bitsLEVal (((List.range k).map fun i => l / 2 ^ i % 2) ++ bs) =
      l % 2 ^ k + 2 ^ k * bitsLEVal bs := by
  induction k with
  | zero =>
    intro l bs
    simp [Nat.mod_one]
  | succ k ih =>
    intro l bs
    rw [List.range_succ_eq_map, List.map_cons, List.map_map]
    have hfun : (List.range k).map ((fun i => l / 2 ^ i % 2) ∘ Nat.succ) =
        (List.range k).map fun i => l / 2 / 2 ^ i % 2 := by
      apply List.map_congr_left
      intro i _
      show l / 2 ^ (i + 1) % 2 = l / 2 / 2 ^ i % 2
      rw [pow_succ, Nat.mul_comm, ← Nat.div_div_eq_div_mul]
    rw [hfun, List.cons_append]
    show l / 2 ^ 0 % 2 +
        2 * bitsLEVal (((List.range k).map fun i => l / 2 / 2 ^ i % 2) ++ bs) =
      l % 2 ^ (k + 1) + 2 ^ (k + 1) * bitsLEVal bs
    rw [ih (l / 2) bs, pow_zero, Nat.div_one]
    have hms : l % 2 ^ (k + 1) = l % 2 + 2 * (l / 2 % 2 ^ k) := by
      rw [pow_succ, Nat.mul_comm (2 ^ k) 2, Nat.mod_mul]
    rw [hms, pow_succ]
    ring

theorem split_length (limbs : List Nat) :
    (splitNonnativeToBits limbs).length = 32 * limbs.length := by
  induction limbs with
  | nil => rfl
  | cons l ls ih =>
    show ((List.range 32).map _ ++ splitNonnativeToBits ls).length =
      32 * (ls.length + 1)
    rw [List.length_append, List.length_map, List.length_range, ih]
    ring

theorem split_bits_le_one (limbs : List Nat) :
    ∀ b ∈ splitNonnativeToBits limbs, b ≤ 1 := by
  intro b hb
  simp only [splitNonnativeToBits, List.mem_flatten, List.mem_map] at hb
  obtain ⟨inner, ⟨l, _, hinner⟩, hbin⟩ := hb
  rw [← hinner] at hbin
  simp only [List.mem_map] at hbin
  obtain ⟨i, _, hbit⟩ := hbin
  omega

theorem split_value : ∀ limbs : List Nat, (∀ l ∈ limbs, l < 2 ^ 32) →
    bitsLEVal (splitNonnativeToBits limbs) = limbsVal limbs := by
  intro limbs
  induction limbs with
  | nil =>
    intro _
    rfl
  | cons l ls ih =>
    intro h
    have hl : l < 2 ^ 32 := h l (by simp)
    have hls : ∀ x ∈ ls, x < 2 ^ 32 := fun x hx => h x (by simp [hx])
    show bitsLEVal (((List.range 32).map fun i => l / 2 ^ i % 2) ++
        splitNonnativeToBits ls) = l + 2 ^ 32 * limbsVal ls
    rw [bitsLEVal_bits_append 32 l (splitNonnativeToBits ls), ih hls,
      Nat.mod_eq_of_lt hl]

/-- C8: split_nonnative_to_bits on an element of L limbs, each a 32-bit
value, returns exactly 32 * L bits, each boolean (0 or 1), ordered
little-endian within each limb with limbs concatenated low to high, and
their little-endian recombination equals the value of the element. -/
theorem split_to_bits_correct (limbs : List Nat)
    (h : ∀ l ∈ limbs, l < 2 ^ 32) :
    (splitNonnativeToBits limbs).length = 32 * limbs.length ∧
      (∀ b ∈ splitNonnativeToBits limbs, b ≤ 1) ∧
      bitsLEVal (splitNonnativeToBits limbs) = limbsVal limbs :=
  ⟨split_length limbs, split_bits_le_one limbs, split_value limbs h⟩

/-- Witness for C8 on the two-limb element [3, 1]. -/
theorem split_to_bits_correct_witness :
    (splitNonnativeToBits [3, 1]).length = 32 * ([3, 1] : List Nat).length ∧
      (∀ b ∈ splitNonnativeToBits [3, 1], b ≤ 1) ∧
      bitsLEVal (splitNonnativeToBits [3, 1]) = limbsVal [3, 1] :=
  split_to_bits_correct [3, 1] (by decide)

/- Serialization facade.  A serialized circuit is modelled as a stream of
words (List Nat): one word per target index, plus length words.  Modelled
from the spec: the biguint, u32 and bool target serialization helpers
live outside this file of the repository; per the spec each nonnative
handle writes its underlying big-int handle, which writes its limb
targets, and deserialization restores handles in the same order, so the
big-int writer is modelled as a length word followed by the limb target
words. -/

/-- write_target_biguint: the limb count followed by the limb targets. -/
def writeBigUint (limbs : List Nat) : List Nat := limbs.length :: limbs

/-- read_target_biguint: read the limb count, then that many limb
targets; an exhausted buffer is an error. -/
def readBigUint : List Nat → Option (List Nat × List Nat)
  | [] => none
  | n :: rest => if n ≤ rest.length then some (rest.take n, rest.drop n) else none

/-- Reading a written big-int handle restores it and leaves the rest of
the stream. -/
theorem readBigUint_write (ls rest : List Nat) :
    readBigUint (writeBigUint ls ++ rest) = some (ls, rest) := by
  have hcond : ls.length ≤ (ls ++ rest).length := by
    rw [List.length_append]
    exact Nat.le_add_right _ _
  show readBigUint (ls.length :: (ls ++ rest)) = some (ls, rest)
  simp only [readBigUint]
  rw [if_pos hcond, List.take_left, List.drop_left]

/-- NonNativeAdditionGenerator: handles of the two inputs, the sum and
the boolean overflow target. -/
structure NonNativeAdditionGen where
  a : List Nat
  b : List Nat
  sum : List Nat
  overflow : Nat

/-- NonNativeAdditionGenerator::id. -/
def nnAddGenId : String := "NonNativeAdditionGenerator"

/-- NonNativeAdditionGenerator::serialize: a, b, sum, then the bool
overflow target. -/
def nnAddGenSerialize (g : NonNativeAdditionGen) : List Nat :=
  writeBigUint g.a ++ (writeBigUint g.b ++ (writeBigUint g.sum ++ [g.overflow]))

/-- NonNativeAdditionGenerator::deserialize. -/
def nnAddGenDeserialize (s : List Nat) : Option (NonNativeAdditionGen × List Nat) :=
  match readBigUint s with
  | none => none
  | some (a, s1) =>
    match readBigUint s1 with
    | none => none
    | some (b, s2) =>
      match readBigUint s2 with
      | none => none
      | some (sum, s3) =>
        match s3 with
        | [] => none
        | o :: s4 => some (⟨a, b, sum, o⟩, s4)

theorem nnAddGen_roundtrip (g : NonNativeAdditionGen) :
    nnAddGenDeserialize (nnAddGenSerialize g) = some (g, []) := by
  simp only [nnAddGenSerialize, nnAddGenDeserialize, readBigUint_write]

/-- NonNativeSubtractionGenerator: handles of the two inputs, the
difference and the boolean overflow target. -/
structure NonNativeSubtractionGen where
  a : List Nat
  b : List Nat
  diff : List Nat
  overflow : Nat

/-- NonNativeSubtractionGenerator::id. -/
def nnSubGenId : String := "NonNativeSubtractionGenerator"

/-- NonNativeSubtractionGenerator::serialize: a, b, diff, then the bool
overflow target. -/
def nnSubGenSerialize (g : NonNativeSubtractionGen) : List Nat :=
  writeBigUint g.a ++ (writeBigUint g.b ++ (writeBigUint g.diff ++ [g.overflow]))

/-- NonNativeSubtractionGenerator::deserialize. -/
def nnSubGenDeserialize (s : List Nat) : Option (NonNativeSubtractionGen × List Nat) :=
  match readBigUint s with
  | none => none
  | some (a, s1) =>
    match readBigUint s1 with
    | none => none
    | some (b, s2) =>
      match readBigUint s2 with
      | none => none
      | some (diff, s3) =>
        match s3 with
        | [] => none
        | o :: s4 => some (⟨a, b, diff, o⟩, s4)

theorem nnSubGen_roundtrip (g : NonNativeSubtractionGen) :
    nnSubGenDeserialize (nnSubGenSerialize g) = some (g, []) := by
  simp only [nnSubGenSerialize, nnSubGenDeserialize, readBigUint_write]

/-- NonNativeMultiplicationGenerator: handles of the two inputs, the
product and the big-int overflow handle. -/
structure NonNativeMultiplicationGen where
  a : List Nat
  b : List Nat
  prod : List Nat
  overflow : List Nat

/-- NonNativeMultiplicationGenerator::id. -/
def nnMulGenId : String := "NonNativeMultiplicationGenerator"

/-- NonNativeMultiplicationGenerator::serialize: a, b, prod, then the
big-int overflow handle. -/
def nnMulGenSerialize (g : NonNativeMultiplicationGen) : List Nat :=
  writeBigUint g.a ++
    (writeBigUint g.b ++ (writeBigUint g.prod ++ writeBigUint g.overflow))

/-- NonNativeMultiplicationGenerator::deserialize. -/
def nnMulGenDeserialize (s : List Nat) :
    Option (NonNativeMultiplicationGen × List Nat) :=
  match readBigUint s with
  | none => none
  | some (a, s1) =>
    match readBigUint s1 with
    | none => none
    | some (b, s2) =>
      match readBigUint s2 with
      | none => none
      | some (prod, s3) =>
        match readBigUint s3 with
        | none => none
        | some (overflow, s4) => some (⟨a, b, prod, overflow⟩, s4)

theorem nnMulGen_roundtrip (g : NonNativeMultiplicationGen) :
    nnMulGenDeserialize (nnMulGenSerialize g) = some (g, []) := by
  have h4 : writeBigUint g.overflow = writeBigUint g.overflow ++ [] := by
    rw [List.append_nil]
  simp only [nnMulGenSerialize, nnMulGenDeserialize]
  rw [h4]
  simp only [readBigUint_write]

/-- NonNativeInverseGenerator: the input handle and the two big-int
output handles inv and div. -/
structure NonNativeInverseGen where
  x : List Nat
  inv : List Nat
  div : List Nat

/-- NonNativeInverseGenerator::id. -/
def nnInvGenId : String := "NonNativeInverseGenerator"

/-- NonNativeInverseGenerator::serialize: x, inv, then div. -/
def nnInvGenSerialize (g : NonNativeInverseGen) : List Nat :=
  writeBigUint g.x ++ (writeBigUint g.inv ++ writeBigUint g.div)

/-- NonNativeInverseGenerator::deserialize. -/
def nnInvGenDeserialize (s : List Nat) : Option (NonNativeInverseGen × List Nat) :=
  match readBigUint s with
  | none => none
  | some (x, s1) =>
    match readBigUint s1 with
    | none => none
    | some (inv, s2) =>
      match readBigUint s2 with
      | none => none
      | some (div, s3) => some (⟨x, inv, div⟩, s3)

theorem nnInvGen_roundtrip (g : NonNativeInverseGen) :
    nnInvGenDeserialize (nnInvGenSerialize g) = some (g, []) := by
  have h3 : writeBigUint g.div = writeBigUint g.div ++ [] := by
    rw [List.append_nil]
  simp only [nnInvGenSerialize, nnInvGenDeserialize]
  rw [h3]
  simp only [readBigUint_write]

/-- NonNativeMultipleAddsGenerator: the summand handles, the sum handle
and the single u32 overflow target. -/
structure NonNativeMultipleAddsGen where
  summands : List (List Nat)
  sum : List Nat
  overflow : Nat

/-- NonNativeMultipleAddsGenerator::id. -/
def nnMultipleAddsGenId : String := "NonNativeMultipleAddsGenerator"

/-- NonNativeMultipleAddsGenerator::serialize: the summand count, each
summand handle in order, the sum handle, then the u32 overflow
target. -/
def nnMultipleAddsGenSerialize (g : NonNativeMultipleAddsGen) : List Nat :=
  g.summands.length ::
    ((g.summands.map writeBigUint).flatten ++ (writeBigUint g.sum ++ [g.overflow]))

/-- Read count many big-int handles in order. -/
def readBigUints : Nat → List Nat → Option (List (List Nat) × List Nat)
  | 0, s => some ([], s)
  | k + 1, s =>
    match readBigUint s with
    | none => none
    | some (x, s1) =>
      match readBigUints k s1 with
      | none => none
      | some (xs, s2) => some (x :: xs, s2)

theorem readBigUints_write (xs : List (List Nat)) : ∀ rest : List Nat,
    readBigUints xs.length ((xs.map writeBigUint).flatten ++ rest) =
      some (xs, rest) := by
  induction xs with
  | nil =>
    intro rest
    rfl
  | cons x xs ih =>
    intro rest
    show readBigUints (xs.length + 1)
        ((writeBigUint x ++ (xs.map writeBigUint).flatten) ++ rest) =
      some (x :: xs, rest)
    rw [List.append_assoc]
    simp only [readBigUints, readBigUint_write, ih]

/-- NonNativeMultipleAddsGenerator::deserialize. -/
def nnMultipleAddsGenDeserialize (s : List Nat) :
    Option (NonNativeMultipleAddsGen × List Nat) :=
  match s with
  | [] => none
  | n :: s1 =>
    match readBigUints n s1 with
    | none => none
    | some (summands, s2) =>
      match readBigUint s2 with
      | none => none
      | some (sum, s3) =>
        match s3 with
        | [] => none
        | o :: s4 => some (⟨summands, sum, o⟩, s4)

theorem nnMultipleAddsGen_roundtrip (g : NonNativeMultipleAddsGen) :
    nnMultipleAddsGenDeserialize (nnMultipleAddsGenSerialize g) =
      some (g, []) := by
  simp only [nnMultipleAddsGenSerialize, nnMultipleAddsGenDeserialize,
    readBigUints_write, readBigUint_write]

/-- C9: the five generator identifiers are exactly the strings
NonNativeAdditionGenerator, NonNativeMultipleAddsGenerator,
NonNativeSubtractionGenerator, NonNativeMultiplicationGenerator and
NonNativeInverseGenerator, and for each generator kind deserializing a
serialized generator restores all of its input, output and overflow
handles (and for multi-add its summand count) in the same order. -/
theorem generator_ids_and_roundtrip :
    nnAddGenId = "NonNativeAdditionGenerator" ∧
      nnMultipleAddsGenId = "NonNativeMultipleAddsGenerator" ∧
      nnSubGenId = "NonNativeSubtractionGenerator" ∧
      nnMulGenId = "NonNativeMultiplicationGenerator" ∧
      nnInvGenId = "NonNativeInverseGenerator" ∧
      (∀ g : NonNativeAdditionGen,
        nnAddGenDeserialize (nnAddGenSerialize g) = some (g, [])) ∧
      (∀ g : NonNativeMultipleAddsGen,
        nnMultipleAddsGenDeserialize (nnMultipleAddsGenSerialize g) =
          some (g, [])) ∧
      (∀ g : NonNativeSubtractionGen,
        nnSubGenDeserialize (nnSubGenSerialize g) = some (g, [])) ∧
      (∀ g : NonNativeMultiplicationGen,
        nnMulGenDeserialize (nnMulGenSerialize g) = some (g, [])) ∧
      (∀ g : NonNativeInverseGen,
        nnInvGenDeserialize (nnInvGenSerialize g) = some (g, [])) :=
  ⟨rfl, rfl, rfl, rfl, rfl, nnAddGen_roundtrip, nnMultipleAddsGen_roundtrip,
    nnSubGen_roundtrip, nnMulGen_roundtrip, nnInvGen_roundtrip⟩

/-- C10: every run_once first canonicalizes its witness inputs mod p
(from_noncanonical_biguint followed by to_canonical_biguint), so two
witness assignments whose input values are congruent mod p, element by
element, lead every generator to write the same output values, the
panicking cases included. -/
theorem run_once_canonicalizes (p a a' b b' : Nat) (s s' : List Nat)
    (ha : a % p = a' % p) (hb : b % p = b' % p)
    (hs : s.map (· % p) = s'.map (· % p)) :
    addGenRun p a b = addGenRun p a' b' ∧
      subGenRun p a b = subGenRun p a' b' ∧
      mulGenRun p a b = mulGenRun p a' b' ∧
      invGenRun p a = invGenRun p a' ∧
      multiAddRun p s = multiAddRun p s' := by
  refine ⟨?_, ?_, ?_, ?_, ?_⟩
  · rw [addGenRun, addGenRun, ha, hb]
  · rw [subGenRun, subGenRun, ha, hb]
  · rw [mulGenRun, mulGenRun, ha, hb]
  · rw [invGenRun, invGenRun, ha]
  · rw [multiAddRun, multiAddRun, hs]

/-- Witness for C10 at p = 5 with the congruent inputs 7 and 2, 3 and 8,
and summand lists [6, 0] and [1, 5]. -/
theorem run_once_canonicalizes_witness :
    addGenRun 5 7 3 = addGenRun 5 2 8 ∧
      subGenRun 5 7 3 = subGenRun 5 2 8 ∧
      mulGenRun 5 7 3 = mulGenRun 5 2 8 ∧
      invGenRun 5 7 = invGenRun 5 2 ∧
      multiAddRun 5 [6, 0] = multiAddRun 5 [1, 5] :=
  run_once_canonicalizes 5 7 2 3 8 [6, 0] [1, 5] (by decide) (by decide)
    (by decide)
